import Mathlib

/-!
Verification of the network impairment simulator
(`carla_bridge/latency_stress_test.py`).

Times, latencies and probability draws are modelled as rationals.  The
pseudo-random draws consumed by the simulator (`random.random()`,
`random.uniform(a,b)`, `random.gauss(0,50)`) are passed in explicitly as a
`Draws` record, so every operation is a pure function of its inputs.

The packet queue is Python's `heapq` over a list of `DelayedPacket`; the
`DelayedPacket` dataclass compares by `delivery_time` only (`data` and
`topic` carry `compare=False`).  We embed CPython's `heapq.heappush` /
`heapq.heappop` algorithms literally (`_siftdown` bubble-up and the
`_siftup` descend-to-leaf-then-bubble-up variant), because the order in
which packets with *equal* delivery times leave the heap depends on these
exact algorithms.
-/

namespace Godview

/-- `DelayedPacket` dataclass: delivery time is the only comparison key;
payload bytes and topic are excluded from comparison (`compare=False`). -/
structure DelayedPacket where
  delivery_time : ℚ
  data : List ℕ
  topic : String
  deriving DecidableEq

instance : Inhabited DelayedPacket := ⟨⟨0, [], ""⟩⟩

/-- CPython `heapq._siftdown(heap, startpos, pos)`: bubble the entry
`newitem` up from `pos` towards `startpos`, moving parents down while they
are strictly greater, and finally store `newitem` at the hole.

The loop is phrased with structural fuel so that it evaluates by kernel
reduction; the hole position strictly decreases each iteration, so fuel
`pos` runs the loop to completion (`siftdownAux_fuel` below), and every
caller passes at least that much. -/
def siftdownAux (newitem : DelayedPacket) : ℕ → List DelayedPacket →
    ℕ → ℕ → List DelayedPacket
  | 0, heap, _, pos => heap.set pos newitem
  | fuel + 1, heap, startpos, pos =>
    if startpos < pos then
      let parentpos := (pos - 1) / 2
      let parent := heap.getD parentpos default
      if newitem.delivery_time < parent.delivery_time then
        siftdownAux newitem fuel (heap.set pos parent) startpos parentpos
      else
        heap.set pos newitem
    else
      heap.set pos newitem

/-- CPython `heapq.heappush(heap, item)`: append, then sift down from the
last position. -/
def heappush (heap : List DelayedPacket) (item : DelayedPacket) :
    List DelayedPacket :=
  siftdownAux item heap.length (heap ++ [item]) 0 heap.length

/-- The descend phase of CPython `heapq._siftup(heap, pos)`: repeatedly
move the smaller child up into the hole (on a tie of the two children the
*right* child is chosen) until the hole reaches a position with no
children.  Returns the shifted list together with the final hole position.

Structural fuel again: the hole position strictly increases and stays
below the (unchanged) length, so fuel `heap.length` suffices. -/
def siftupAux : ℕ → List DelayedPacket → ℕ → List DelayedPacket × ℕ
  | 0, heap, pos => (heap, pos)
  | fuel + 1, heap, pos =>
    if 2 * pos + 1 < heap.length then
      let childpos :=
        if 2 * pos + 2 < heap.length ∧
            ¬ (heap.getD (2 * pos + 1) default).delivery_time <
              (heap.getD (2 * pos + 2) default).delivery_time then
          2 * pos + 2
        else 2 * pos + 1
      siftupAux fuel (heap.set pos (heap.getD childpos default)) childpos
    else
      (heap, pos)

/-- CPython `heapq._siftup(heap, pos)`: remember the entry at the hole,
descend the hole to a leaf, then bubble the remembered entry back up. -/
def siftup (heap : List DelayedPacket) (pos : ℕ) : List DelayedPacket :=
  let newitem := heap.getD pos default
  let hp := siftupAux heap.length heap pos
  siftdownAux newitem hp.2 hp.1 pos hp.2

/-- CPython `heapq.heappop(heap)`: pop the last list element; if the list
is still non-empty, the root is the returned item, the popped last element
is written to the root and sifted up.  `none` on an empty heap (Python
raises `IndexError`, which the caller's loop guard rules out). -/
def heappop : List DelayedPacket → Option (DelayedPacket × List DelayedPacket)
  | [] => none
  | x :: xs =>
    let lastelt := (x :: xs).getLast (List.cons_ne_nil x xs)
    match (x :: xs).dropLast with
    | [] => some (lastelt, [])
    | y :: ys => some (y, siftup ((y :: ys).set 0 lastelt) 0)

/-- `LatencyConfig` dataclass (defaults from the source). -/
structure LatencyConfig where
  min_latency_ms : ℚ := 50
  max_latency_ms : ℚ := 300
  packet_loss_rate : ℚ := 1/10
  burst_probability : ℚ := 1/20
  burst_duration_ms : ℚ := 500
  burst_latency_ms : ℚ := 800
  deriving DecidableEq

/-- The pseudo-random draws consumed by one `enqueue_packet` call:
`loss` and `burst` stand for the two `random.random()` calls (values in
`[0,1)`), `noise` for `random.gauss(0, 50)` (any real value) and `unif`
for `random.uniform(min_latency_ms, max_latency_ms)`. -/
structure Draws where
  loss : ℚ
  burst : ℚ
  noise : ℚ
  unif : ℚ
  deriving DecidableEq

/-- `LatencySimulator` state: packet queue, burst state machine and the
statistics counters. -/
structure LatencySimulator where
  config : LatencyConfig
  packet_queue : List DelayedPacket := []
  in_burst : Bool := false
  burst_end_time : ℚ := 0
  packets_sent : ℕ := 0
  packets_dropped : ℕ := 0
  packets_delivered : ℕ := 0
  total_delay : ℚ := 0
  deriving DecidableEq

/-- `LatencySimulator.__init__`: stores the configuration unchanged (no
validation of any kind is performed) and starts with an empty queue, no
burst and zero counters. -/
def LatencySimulator.init (config : LatencyConfig) : LatencySimulator :=
  { config := config }

/-- `LatencySimulator.maybe_start_burst(current_time)`, with the
`random.random()` draw made explicit.  When an active burst has expired
the method clears the flag and returns the (now false) flag — it does
*not* fall through to the probabilistic start. -/
def maybe_start_burst (sim : LatencySimulator) (current_time : ℚ)
    (draw : ℚ) : Bool × LatencySimulator :=
  if sim.in_burst then
    if current_time > sim.burst_end_time then
      (false, { sim with in_burst := false })
    else
      (true, sim)
  else if draw < sim.config.burst_probability then
    (true, { sim with in_burst := true,
                      burst_end_time :=
                        current_time + sim.config.burst_duration_ms / 1000 })
  else
    (false, sim)

/-- `LatencySimulator.enqueue_packet(data, topic, current_time)` with the
random draws made explicit.  Returns the Python boolean result (`False`
iff dropped) together with the updated state. -/
def enqueue_packet (sim : LatencySimulator) (data : List ℕ) (topic : String)
    (current_time : ℚ) (d : Draws) : Bool × LatencySimulator :=
  let sim := { sim with packets_sent := sim.packets_sent + 1 }
  if d.loss < sim.config.packet_loss_rate then
    (false, { sim with packets_dropped := sim.packets_dropped + 1 })
  else
    let bs := maybe_start_burst sim current_time d.burst
    let sim := bs.2
    let latency_ms :=
      if bs.1 then sim.config.burst_latency_ms + d.noise else d.unif
    let delivery_time := current_time + latency_ms / 1000
    let sim := { sim with total_delay := sim.total_delay + latency_ms }
    let packet : DelayedPacket := ⟨delivery_time, data, topic⟩
    (true, { sim with packet_queue := heappush sim.packet_queue packet })

/-- The `while` loop of `get_ready_packets`, fuelled: while the queue is
non-empty and its root is due, pop the root and append it to the result.
One packet is popped per fuel unit, so fuel `q.length` runs the loop to
completion. -/
def drainGo : ℕ → List DelayedPacket → ℚ →
    List DelayedPacket × List DelayedPacket
  | 0, q, _ => ([], q)
  | fuel + 1, q, now =>
    match q with
    | [] => ([], [])
    | p0 :: rest =>
      if p0.delivery_time ≤ now then
        match heappop (p0 :: rest) with
        | some pq =>
          let r := drainGo fuel pq.2 now
          (pq.1 :: r.1, r.2)
        | none => ([], p0 :: rest)
      else
        ([], p0 :: rest)

/-- `LatencySimulator.get_ready_packets(current_time)`: pops every due
packet, counts each pop in `packets_delivered`, and returns the popped
packets in pop order together with the updated state. -/
def get_ready_packets (sim : LatencySimulator) (now : ℚ) :
    List DelayedPacket × LatencySimulator :=
  let r := drainGo sim.packet_queue.length sim.packet_queue now
  (r.1, { sim with packet_queue := r.2,
                   packets_delivered := sim.packets_delivered + r.1.length })

/-! ### Operation traces

A trace is a list of `enqueue_packet` / `get_ready_packets` calls with
their arguments (including the random draws the call consumes). -/

/-- One call made on the simulator. -/
inductive Op where
  | enq (data : List ℕ) (topic : String) (now : ℚ) (d : Draws)
  | drain (now : ℚ)
  deriving DecidableEq

/-- The clock value a call passes in. -/
def nowOf : Op → ℚ
  | .enq _ _ now _ => now
  | .drain now => now

/-- State after one call. -/
def stepSim (sim : LatencySimulator) : Op → LatencySimulator
  | .enq data topic now d => (enqueue_packet sim data topic now d).2
  | .drain now => (get_ready_packets sim now).2

/-- State after a whole trace. -/
def runSim (sim : LatencySimulator) (ops : List Op) : LatencySimulator :=
  ops.foldl stepSim sim

/-- The packets one call hands back to the caller. -/
def drainedStep (sim : LatencySimulator) : Op → List DelayedPacket
  | .enq _ _ _ _ => []
  | .drain now => (get_ready_packets sim now).1

/-- All packets returned to the caller across a trace, in delivery order. -/
def drainedAll (sim : LatencySimulator) : List Op → List DelayedPacket
  | [] => []
  | op :: ops => drainedStep sim op ++ drainedAll (stepSim sim op) ops

/-- Ghost mirror of `enqueue_packet`: the packet (if any) that the call
pushes onto the queue.  `enqueue_sched` below proves it faithful. -/
def schedStep (sim : LatencySimulator) : Op → List DelayedPacket
  | .enq data topic now d =>
    if d.loss < sim.config.packet_loss_rate then []
    else
      let bs := maybe_start_burst
        { sim with packets_sent := sim.packets_sent + 1 } now d.burst
      let latency_ms :=
        if bs.1 then bs.2.config.burst_latency_ms + d.noise else d.unif
      [⟨now + latency_ms / 1000, data, topic⟩]
  | .drain _ => []

/-- All packets scheduled (pushed) across a trace. -/
def schedAll (sim : LatencySimulator) : List Op → List DelayedPacket
  | [] => []
  | op :: ops => schedStep sim op ++ schedAll (stepSim sim op) ops

/-- The clock values of the calls on which a burst starts (the `in_burst`
flag goes from false to true). -/
def burstStarts (sim : LatencySimulator) : List Op → List ℚ
  | [] => []
  | op :: ops =>
    (if sim.in_burst = false ∧ (stepSim sim op).in_burst = true
     then [nowOf op] else []) ++
    burstStarts (stepSim sim op) ops

/-! ### The heap invariant -/

/-- The binary-heap shape invariant of `heapq`: every parent is `≤` both
of its children on the comparison key (`delivery_time`). -/
def HeapInv (l : List DelayedPacket) : Prop :=
  ∀ i j : ℕ, j < l.length → (j = 2 * i + 1 ∨ j = 2 * i + 2) →
    (l.getD i default).delivery_time ≤ (l.getD j default).delivery_time

/-- Heap property away from a hole at `pos`: every parent-child pair not
touching the hole is ordered. -/
def BubbleA (l : List DelayedPacket) (pos : ℕ) : Prop :=
  ∀ i j : ℕ, j < l.length → (j = 2 * i + 1 ∨ j = 2 * i + 2) →
    i ≠ pos → j ≠ pos →
    (l.getD i default).delivery_time ≤ (l.getD j default).delivery_time

/-- The entry carried by the hole at `pos` is below the hole's children. -/
def BubbleB (l : List DelayedPacket) (pos : ℕ) (newitem : DelayedPacket) :
    Prop :=
  ∀ j : ℕ, j < l.length → (j = 2 * pos + 1 ∨ j = 2 * pos + 2) →
    newitem.delivery_time ≤ (l.getD j default).delivery_time

/-- Bridging over the hole at `pos`: the hole's parent is below the hole's
children. -/
def BubbleC (l : List DelayedPacket) (pos : ℕ) : Prop :=
  ∀ j : ℕ, 0 < pos → j < l.length → (j = 2 * pos + 1 ∨ j = 2 * pos + 2) →
    (l.getD ((pos - 1) / 2) default).delivery_time ≤
      (l.getD j default).delivery_time

/-! ## List access helper lemmas -/

theorem getD_lt {α : Type _} (l : List α) (d : α) {i : ℕ}
    (h : i < l.length) : l.getD i d = l[i] := by
  simp [List.getD_eq_getElem?_getD, List.getElem?_eq_getElem h]

theorem getD_ge {α : Type _} (l : List α) (d : α) {i : ℕ}
    (h : l.length ≤ i) : l.getD i d = d := by
  simp [List.getD_eq_getElem?_getD, List.getElem?_eq_none h]

theorem getD_set_self {α : Type _} (l : List α) (a d : α) {i : ℕ}
    (h : i < l.length) : (l.set i a).getD i d = a := by
  have h2 : i < (l.set i a).length := by simpa using h
  rw [getD_lt _ _ h2]
  simp

theorem getD_set_ne {α : Type _} (l : List α) (a d : α) {i j : ℕ}
    (hij : i ≠ j) : (l.set i a).getD j d = l.getD j d := by
  rcases Nat.lt_or_ge j l.length with h | h
  · have h2 : j < (l.set i a).length := by simpa using h
    rw [getD_lt _ _ h2, getD_lt _ _ h, List.getElem_set_ne hij]
  · rw [getD_ge _ _ (by simpa using h), getD_ge _ _ h]

theorem getD_append_lt {α : Type _} (l t : List α) (d : α) {i : ℕ}
    (h : i < l.length) : (l ++ t).getD i d = l.getD i d := by
  have h2 : i < (l ++ t).length := by simp; omega
  rw [getD_lt _ _ h2, getD_lt _ _ h, List.getElem_append_left h]

theorem getD_append_len {α : Type _} (l : List α) (x d : α) :
    (l ++ [x]).getD l.length d = x := by
  have h2 : l.length < (l ++ [x]).length := by simp
  rw [getD_lt _ _ h2, List.getElem_append_right (Nat.le_refl _)]
  simp

theorem getD_dropLast {α : Type _} (l : List α) (d : α) {i : ℕ}
    (h : i < l.dropLast.length) : l.dropLast.getD i d = l.getD i d := by
  have h2 : i < l.length := by
    rcases l with _ | ⟨x, xs⟩ <;> simp_all <;> omega
  rw [getD_lt _ _ h, getD_lt _ _ h2, List.getElem_dropLast]

/-! ## Multiset bookkeeping for in-place updates -/

theorem ms_set {α : Type _} (l : List α) (a d : α) :
    ∀ i : ℕ, i < l.length →
      ((l.set i a : List α) : Multiset α) + {l.getD i d} =
        ((l : List α) : Multiset α) + {a} := by
  induction l with
  | nil => intro i h; simp at h
  | cons x t ih =>
    intro i h
    cases i with
    | zero =>
      show ((a :: t : List α) : Multiset α) + {x} =
        ((x :: t : List α) : Multiset α) + {a}
      rw [← Multiset.cons_coe, ← Multiset.cons_coe,
        ← Multiset.singleton_add, ← Multiset.singleton_add]
      abel
    | succ i =>
      have ht : i < t.length := by simpa using h
      show ((x :: t.set i a : List α) : Multiset α) + {(x :: t).getD (i+1) d}
        = ((x :: t : List α) : Multiset α) + {a}
      rw [List.getD_cons_succ, ← Multiset.cons_coe, ← Multiset.cons_coe,
        Multiset.cons_add, Multiset.cons_add, ih i ht]

theorem ms_set_set {α : Type _} (l : List α) (x d : α) {pos pp : ℕ}
    (hne : pp ≠ pos) (hpp : pp < l.length) (hpos : pos < l.length) :
    (((l.set pos (l.getD pp d)).set pp x : List α) : Multiset α) =
      ((l.set pos x : List α) : Multiset α) := by
  have h1 : pp < (l.set pos (l.getD pp d)).length := by simpa using hpp
  have e1 := ms_set (l.set pos (l.getD pp d)) x d pp h1
  rw [getD_set_ne l (l.getD pp d) d (fun h => hne h.symm)] at e1
  have e2 := ms_set l (l.getD pp d) d pos hpos
  have e3 := ms_set l x d pos hpos
  have key : (((l.set pos (l.getD pp d)).set pp x : List α) : Multiset α)
      + ({l.getD pp d} + {l.getD pos d})
      = ((l.set pos x : List α) : Multiset α)
        + ({l.getD pp d} + {l.getD pos d}) :=
    calc (((l.set pos (l.getD pp d)).set pp x : List α) : Multiset α)
        + ({l.getD pp d} + {l.getD pos d})
        = (((l.set pos (l.getD pp d)).set pp x : List α) : Multiset α)
          + {l.getD pp d} + {l.getD pos d} := by abel
      _ = ((l.set pos (l.getD pp d) : List α) : Multiset α) + {x}
          + {l.getD pos d} := by rw [e1]
      _ = ((l.set pos (l.getD pp d) : List α) : Multiset α)
          + {l.getD pos d} + {x} := by abel
      _ = ((l : List α) : Multiset α) + {l.getD pp d} + {x} := by rw [e2]
      _ = ((l : List α) : Multiset α) + {x} + {l.getD pp d} := by abel
      _ = ((l.set pos x : List α) : Multiset α) + {l.getD pos d}
          + {l.getD pp d} := by rw [← e3]
      _ = ((l.set pos x : List α) : Multiset α)
          + ({l.getD pp d} + {l.getD pos d}) := by abel
  exact add_right_cancel key

/-! ## Length and multiset behaviour of the sift loops -/

theorem siftdownAux_length (newitem : DelayedPacket) :
    ∀ (fuel : ℕ) (heap : List DelayedPacket) (startpos pos : ℕ),
      (siftdownAux newitem fuel heap startpos pos).length = heap.length := by
  intro fuel
  induction fuel with
  | zero => intro heap s p; simp [siftdownAux]
  | succ fuel ih =>
    intro heap s p
    simp only [siftdownAux]
    split
    · split
      · rw [ih]; simp
      · simp
    · simp

theorem siftupAux_length :
    ∀ (fuel : ℕ) (heap : List DelayedPacket) (pos : ℕ),
      (siftupAux fuel heap pos).1.length = heap.length := by
  intro fuel
  induction fuel with
  | zero => intro heap p; simp [siftupAux]
  | succ fuel ih =>
    intro heap p
    simp only [siftupAux]
    split
    · rw [ih]; simp
    · simp

theorem siftdownAux_ms (newitem : DelayedPacket) :
    ∀ (fuel : ℕ) (heap : List DelayedPacket) (startpos pos : ℕ),
      pos < heap.length →
      ((siftdownAux newitem fuel heap startpos pos : List DelayedPacket) :
          Multiset DelayedPacket) =
        ((heap.set pos newitem : List DelayedPacket) :
          Multiset DelayedPacket) := by
  intro fuel
  induction fuel with
  | zero => intro heap s pos hpos; simp [siftdownAux]
  | succ fuel ih =>
    intro heap s pos hpos
    simp only [siftdownAux]
    by_cases hsp : s < pos
    · rw [if_pos hsp]
      by_cases hlt : newitem.delivery_time <
          ((heap.getD ((pos - 1) / 2) default).delivery_time)
      · rw [if_pos hlt]
        have hpp : (pos - 1) / 2 < heap.length := by omega
        have hpp2 : (pos - 1) / 2 < (heap.set pos
            (heap.getD ((pos - 1) / 2) default)).length := by
          simpa using hpp
        rw [ih _ s _ hpp2]
        exact ms_set_set heap newitem default (by omega) hpp hpos
      · rw [if_neg hlt]
    · rw [if_neg hsp]

/-! ## The sift-down (bubble-up) loop preserves the heap invariant -/

theorem bubble_stop {l : List DelayedPacket} {pos : ℕ}
    {newitem : DelayedPacket} (hpos : pos < l.length) (hA : BubbleA l pos)
    (hB : BubbleB l pos newitem)
    (hstop : 0 < pos →
      (l.getD ((pos - 1) / 2) default).delivery_time ≤
        newitem.delivery_time) :
    HeapInv (l.set pos newitem) := by
  intro i j hj hch
  rw [List.length_set] at hj
  by_cases hjp : j = pos
  · subst hjp
    have h0 : 0 < j := by omega
    have hi : i = (j - 1) / 2 := by omega
    rw [getD_set_self l newitem default hpos,
      getD_set_ne l newitem default (by omega : j ≠ i)]
    rw [hi]
    exact hstop h0
  · by_cases hip : i = pos
    · subst hip
      rw [getD_set_self l newitem default hpos,
        getD_set_ne l newitem default (fun he => hjp he.symm)]
      exact hB j hj hch
    · rw [getD_set_ne l newitem default (fun he => hip he.symm),
        getD_set_ne l newitem default (fun he => hjp he.symm)]
      exact hA i j hj hch hip hjp

theorem siftdownAux_inv (newitem : DelayedPacket) :
    ∀ (fuel : ℕ) (l : List DelayedPacket) (pos : ℕ),
      pos ≤ fuel → pos < l.length → BubbleA l pos →
      BubbleB l pos newitem → BubbleC l pos →
      HeapInv (siftdownAux newitem fuel l 0 pos) := by
  intro fuel
  induction fuel with
  | zero =>
    intro l pos hf hpos hA hB _
    have h0 : pos = 0 := by omega
    subst h0
    show HeapInv (l.set 0 newitem)
    exact bubble_stop hpos hA hB (fun hh => absurd hh (by omega))
  | succ fuel ih =>
    intro l pos hf hpos hA hB hC
    simp only [siftdownAux]
    by_cases h0 : 0 < pos
    · rw [if_pos h0]
      by_cases hlt : newitem.delivery_time <
          ((l.getD ((pos - 1) / 2) default).delivery_time)
      · rw [if_pos hlt]
        have hpplt : (pos - 1) / 2 < pos := by omega
        have hppl : (pos - 1) / 2 < l.length := by omega
        have hA2 : BubbleA (l.set pos (l.getD ((pos - 1) / 2) default))
            ((pos - 1) / 2) := by
          intro i j hj hch hip hjp
          rw [List.length_set] at hj
          by_cases hjpos : j = pos
          · exact absurd (by omega : i = (pos - 1) / 2) hip
          · by_cases hipos : i = pos
            · subst hipos
              rw [getD_set_self l _ default hpos,
                getD_set_ne l _ default (fun he => hjpos he.symm)]
              exact hC j h0 hj (by omega)
            · rw [getD_set_ne l _ default (fun he => hipos he.symm),
                getD_set_ne l _ default (fun he => hjpos he.symm)]
              exact hA i j hj hch hipos hjpos
        have hB2 : BubbleB (l.set pos (l.getD ((pos - 1) / 2) default))
            ((pos - 1) / 2) newitem := by
          intro j hj hch
          rw [List.length_set] at hj
          by_cases hjpos : j = pos
          · subst hjpos
            rw [getD_set_self l _ default hpos]
            exact le_of_lt hlt
          · rw [getD_set_ne l _ default (fun he => hjpos he.symm)]
            exact le_trans (le_of_lt hlt)
              (hA ((pos - 1) / 2) j hj hch (by omega) hjpos)
        have hC2 : BubbleC (l.set pos (l.getD ((pos - 1) / 2) default))
            ((pos - 1) / 2) := by
          intro j hpp0 hj hch
          rw [List.length_set] at hj
          have hgpne : pos ≠ ((pos - 1) / 2 - 1) / 2 := by omega
          rw [getD_set_ne l _ default hgpne]
          by_cases hjpos : j = pos
          · rw [hjpos, getD_set_self l _ default hpos]
            exact hA (((pos - 1) / 2 - 1) / 2) ((pos - 1) / 2) hppl
              (by omega) (by omega) (by omega)
          · rw [getD_set_ne l _ default (fun he => hjpos he.symm)]
            exact le_trans
              (hA (((pos - 1) / 2 - 1) / 2) ((pos - 1) / 2) hppl
                (by omega) (by omega) (by omega))
              (hA ((pos - 1) / 2) j hj (by omega) (by omega) hjpos)
        exact ih _ _ (by omega) (by simpa using hppl) hA2 hB2 hC2
      · rw [if_neg hlt]
        exact bubble_stop hpos hA hB (fun _ => le_of_not_lt hlt)
    · rw [if_neg h0]
      exact bubble_stop hpos hA hB (by omega)

/-! ## Root minimality and `heappush` -/

theorem root_min {l : List DelayedPacket} (h : HeapInv l) :
    ∀ j : ℕ, j < l.length →
      (l.getD 0 default).delivery_time ≤
        (l.getD j default).delivery_time := by
  intro j
  induction j using Nat.strong_induction_on with
  | _ j ih =>
    intro hj
    rcases Nat.eq_zero_or_pos j with h0 | h0
    · subst h0; exact le_refl _
    · exact le_trans (ih ((j - 1) / 2) (by omega) (by omega))
        (h ((j - 1) / 2) j hj (by omega))

theorem heappush_inv {l : List DelayedPacket} (h : HeapInv l)
    (x : DelayedPacket) : HeapInv (heappush l x) := by
  unfold heappush
  apply siftdownAux_inv x l.length (l ++ [x]) l.length (le_refl _) (by simp)
  · intro i j hj hch hip hjp
    rw [List.length_append, List.length_cons, List.length_nil] at hj
    have hjl : j < l.length := by omega
    have hil : i < l.length := by omega
    rw [getD_append_lt _ _ _ hil, getD_append_lt _ _ _ hjl]
    exact h i j hjl hch
  · intro j hj hch
    rw [List.length_append, List.length_cons, List.length_nil] at hj
    exfalso; omega
  · intro j h0 hj hch
    rw [List.length_append, List.length_cons, List.length_nil] at hj
    exfalso; omega

theorem heappush_length (l : List DelayedPacket) (x : DelayedPacket) :
    (heappush l x).length = l.length + 1 := by
  unfold heappush
  rw [siftdownAux_length]
  simp

theorem heappush_ms (l : List DelayedPacket) (x : DelayedPacket) :
    ((heappush l x : List DelayedPacket) : Multiset DelayedPacket) =
      x ::ₘ ((l : List DelayedPacket) : Multiset DelayedPacket) := by
  unfold heappush
  rw [siftdownAux_ms x l.length (l ++ [x]) 0 l.length (by simp)]
  have e1 := ms_set (l ++ [x]) x default l.length (by simp)
  rw [getD_append_len] at e1
  have e2 := add_right_cancel e1
  rw [e2, Multiset.cons_coe, Multiset.coe_eq_coe]
  exact List.perm_append_singleton x l

/-! ## The descend phase of `_siftup` -/

theorem siftupAux_spec :
    ∀ (fuel : ℕ) (l : List DelayedPacket) (pos : ℕ)
      (l2 : List DelayedPacket) (p2 : ℕ),
      siftupAux fuel l pos = (l2, p2) →
      l.length ≤ fuel + pos → pos < l.length → BubbleA l pos →
      BubbleC l pos →
      l2.length = l.length ∧ pos ≤ p2 ∧ p2 < l.length ∧ BubbleA l2 p2 ∧
        BubbleC l2 p2 ∧ l.length ≤ 2 * p2 + 1 ∧
        ∀ x : DelayedPacket,
          ((l2.set p2 x : List DelayedPacket) : Multiset DelayedPacket) =
            ((l.set pos x : List DelayedPacket) : Multiset DelayedPacket) := by
  intro fuel
  induction fuel with
  | zero =>
    intro l pos l2 p2 heq hf hpos hA hC
    exact absurd hpos (by omega)
  | succ fuel ih =>
    intro l pos l2 p2 heq hf hpos hA hC
    simp only [siftupAux] at heq
    by_cases hg : 2 * pos + 1 < l.length
    · rw [if_pos hg] at heq
      have main : ∀ c : ℕ, c = 2 * pos + 1 ∨ c = 2 * pos + 2 →
          c < l.length →
          (∀ oc : ℕ, oc = 2 * pos + 1 ∨ oc = 2 * pos + 2 → oc < l.length →
            (l.getD c default).delivery_time ≤
              (l.getD oc default).delivery_time) →
          siftupAux fuel (l.set pos (l.getD c default)) c = (l2, p2) →
          l2.length = l.length ∧ pos ≤ p2 ∧ p2 < l.length ∧
            BubbleA l2 p2 ∧ BubbleC l2 p2 ∧ l.length ≤ 2 * p2 + 1 ∧
            ∀ x : DelayedPacket,
              ((l2.set p2 x : List DelayedPacket) : Multiset DelayedPacket) =
                ((l.set pos x : List DelayedPacket) :
                  Multiset DelayedPacket) := by
        intro c hcch hcl hcmin heq2
        have hA2 : BubbleA (l.set pos (l.getD c default)) c := by
          intro i j hj hch hic hjc
          rw [List.length_set] at hj
          by_cases hip : i = pos
          · rw [hip, getD_set_self l _ default hpos,
              getD_set_ne l _ default (fun he => (by omega : j ≠ pos) he.symm)]
            exact hcmin j (by omega) hj
          · by_cases hjp : j = pos
            · rw [hjp, getD_set_self l _ default hpos,
                getD_set_ne l _ default (fun he => hip he.symm)]
              have hi : i = (pos - 1) / 2 := by omega
              rw [hi]
              exact hC c (by omega) hcl hcch
            · rw [getD_set_ne l _ default (fun he => hip he.symm),
                getD_set_ne l _ default (fun he => hjp he.symm)]
              exact hA i j hj hch hip hjp
        have hC2 : BubbleC (l.set pos (l.getD c default)) c := by
          intro j h0c hj hch
          rw [List.length_set] at hj
          have hcp : (c - 1) / 2 = pos := by omega
          rw [hcp, getD_set_self l _ default hpos,
            getD_set_ne l _ default (fun he => (by omega : j ≠ pos) he.symm)]
          exact hA c j hj hch (by omega) (by omega)
        have hres := ih (l.set pos (l.getD c default)) c l2 p2 heq2
          (by rw [List.length_set]; omega) (by rw [List.length_set]; omega)
          hA2 hC2
        rw [List.length_set] at hres
        refine ⟨hres.1, by omega, hres.2.2.1, hres.2.2.2.1, hres.2.2.2.2.1,
          hres.2.2.2.2.2.1, ?_⟩
        intro x
        rw [hres.2.2.2.2.2.2 x]
        exact ms_set_set l x default (by omega) hcl hpos
      by_cases hcond : 2 * pos + 2 < l.length ∧
          ¬ (l.getD (2 * pos + 1) default).delivery_time <
            (l.getD (2 * pos + 2) default).delivery_time
      · rw [if_pos hcond] at heq
        refine main (2 * pos + 2) (Or.inr rfl) hcond.1 ?_ heq
        intro oc hoc hocl
        rcases hoc with h1 | h1
        · rw [h1]; exact le_of_not_lt hcond.2
        · rw [h1]
      · rw [if_neg hcond] at heq
        refine main (2 * pos + 1) (Or.inl rfl) hg ?_ heq
        intro oc hoc hocl
        rcases hoc with h1 | h1
        · rw [h1]
        · rw [h1]
          rcases Decidable.not_and_iff_or_not.mp hcond with h2 | h2
          · exact absurd (h1 ▸ hocl) h2
          · exact le_of_lt (Decidable.not_not.mp h2)
    · rw [if_neg hg] at heq
      cases heq
      exact ⟨rfl, le_refl _, hpos, hA, hC, by omega, fun x => rfl⟩

/-! ## `heappop` returns the root and preserves the invariant -/

theorem heapinv_dropLast {l : List DelayedPacket} (h : HeapInv l) :
    HeapInv l.dropLast := by
  intro i j hj hch
  have hjl : j < l.length := by
    rcases l with _ | ⟨x, xs⟩
    · simp at hj
    · simp at hj ⊢; omega
  rw [getD_dropLast l default (by omega : i < l.dropLast.length),
    getD_dropLast l default hj]
  exact h i j hjl hch

theorem set_getD_self {α : Type _} (l : List α) (d : α) :
    ∀ i : ℕ, i < l.length → l.set i (l.getD i d) = l := by
  induction l with
  | nil => intro i h; simp at h
  | cons x t ih =>
    intro i h
    cases i with
    | zero => simp
    | succ i =>
      have ht : i < t.length := by simpa using h
      show x :: t.set i ((x :: t).getD (i + 1) d) = x :: t
      rw [List.getD_cons_succ, ih i ht]

/-- The whole of CPython `_siftup` started at the root: on a list that is
a heap except possibly at the root, it restores the heap invariant and
permutes nothing. -/
theorem siftup_root_spec (l0 : List DelayedPacket) (h0 : 0 < l0.length)
    (hA : BubbleA l0 0) (hC : BubbleC l0 0) :
    HeapInv (siftup l0 0) ∧ (siftup l0 0).length = l0.length ∧
      ((siftup l0 0 : List DelayedPacket) : Multiset DelayedPacket) =
        ((l0 : List DelayedPacket) : Multiset DelayedPacket) := by
  have hbody : siftup l0 0 =
      siftdownAux (l0.getD 0 default) (siftupAux l0.length l0 0).2
        (siftupAux l0.length l0 0).1 0 (siftupAux l0.length l0 0).2 := rfl
  set su := siftupAux l0.length l0 0 with hsu
  have hsp := siftupAux_spec l0.length l0 0 su.1 su.2 (by rw [hsu])
    (by omega) h0 hA hC
  have hBleaf : BubbleB su.1 su.2 (l0.getD 0 default) := by
    intro j hj hch
    rw [hsp.1] at hj
    exact absurd hj (by omega)
  have hCleaf : BubbleC su.1 su.2 := by
    intro j hj0 hj hch
    rw [hsp.1] at hj
    exact absurd hj (by omega)
  have hfin := siftdownAux_inv (l0.getD 0 default) su.2 su.1 su.2
    (le_refl _) (by rw [hsp.1]; exact hsp.2.2.1) hsp.2.2.2.1 hBleaf hCleaf
  refine ⟨hbody ▸ hfin, ?_, ?_⟩
  · rw [hbody, siftdownAux_length, hsp.1]
  · rw [hbody, siftdownAux_ms (l0.getD 0 default) su.2 su.1 0 su.2
      (by rw [hsp.1]; exact hsp.2.2.1), hsp.2.2.2.2.2.2 (l0.getD 0 default),
      set_getD_self l0 default 0 h0]

theorem heappop_spec :
    ∀ (l : List DelayedPacket) (p : DelayedPacket) (q : List DelayedPacket),
      heappop l = some (p, q) → HeapInv l →
      p = l.getD 0 default ∧ HeapInv q ∧ q.length = l.length - 1 ∧
        ((l : List DelayedPacket) : Multiset DelayedPacket) =
          p ::ₘ ((q : List DelayedPacket) : Multiset DelayedPacket) := by
  intro l p q heq hinv
  match l with
  | [] => simp [heappop] at heq
  | [x] =>
    simp only [heappop, List.dropLast_single, List.getLast_singleton] at heq
    rw [Option.some.injEq, Prod.mk.injEq] at heq
    obtain ⟨hp, hq⟩ := heq
    refine ⟨hp.symm, ?_, by rw [← hq]; simp, by rw [← hp, ← hq]; simp⟩
    rw [← hq]
    intro i j hj
    simp at hj
  | x :: y :: ys =>
    have hdl : (x :: y :: ys).dropLast = x :: (y :: ys).dropLast := rfl
    simp only [heappop, hdl] at heq
    rw [Option.some.injEq, Prod.mk.injEq] at heq
    obtain ⟨hp, hq⟩ := heq
    have hL : ∃ L : DelayedPacket, (x :: y :: ys).getLast (by simp) = L :=
      ⟨_, rfl⟩
    obtain ⟨L, hLdef⟩ := hL
    rw [hLdef] at hq
    have hrinv : HeapInv ((x :: y :: ys).dropLast) := heapinv_dropLast hinv
    rw [hdl] at hrinv
    have hr0 : (0 : ℕ) < (x :: (y :: ys).dropLast).length := by simp
    have hA0 : BubbleA ((x :: (y :: ys).dropLast).set 0 L) 0 := by
      intro i j hj hch hi0 hj0
      rw [List.length_set] at hj
      rw [getD_set_ne _ L default (fun he => hi0 he.symm),
        getD_set_ne _ L default (fun he => hj0 he.symm)]
      exact hrinv i j hj hch
    have hC0 : BubbleC ((x :: (y :: ys).dropLast).set 0 L) 0 := by
      intro j h0 hj hch
      exact absurd h0 (by omega)
    have hsr := siftup_root_spec ((x :: (y :: ys).dropLast).set 0 L)
      (by simpa using hr0) hA0 hC0
    have hset0 : (x :: (y :: ys).dropLast).set 0 L =
        L :: (y :: ys).dropLast := rfl
    refine ⟨hp.symm, by rw [← hq]; exact hsr.1, ?_, ?_⟩
    · rw [← hq, hsr.2.1, List.length_set]
      simp [List.length_dropLast]
    · rw [← hp, ← hq, hsr.2.2, hset0]
      have hself : ((x :: y :: ys : List DelayedPacket) :
          Multiset DelayedPacket) =
          (((x :: y :: ys).dropLast ++ [L] : List DelayedPacket) :
            Multiset DelayedPacket) := by
        rw [← hLdef, List.dropLast_concat_getLast]
      rw [hself, hdl]
      rw [List.cons_append, ← Multiset.cons_coe, Multiset.cons_inj_right,
        Multiset.coe_eq_coe]
      exact List.perm_append_singleton L _

theorem heappop_isSome (x : DelayedPacket) (xs : List DelayedPacket) :
    ∃ pq : DelayedPacket × List DelayedPacket,
      heappop (x :: xs) = some pq := by
  cases xs with
  | nil => exact ⟨(x, []), rfl⟩
  | cons y ys => exact ⟨_, rfl⟩

theorem siftup_length (heap : List DelayedPacket) (pos : ℕ) :
    (siftup heap pos).length = heap.length := by
  show (siftdownAux _ _ (siftupAux heap.length heap pos).1 _ _).length = _
  rw [siftdownAux_length, siftupAux_length]

theorem heappop_length :
    ∀ (l : List DelayedPacket) (p : DelayedPacket) (q : List DelayedPacket),
      heappop l = some (p, q) → q.length = l.length - 1 := by
  intro l p q heq
  match l with
  | [] => simp [heappop] at heq
  | [x] =>
    simp only [heappop, List.dropLast_single] at heq
    rw [Option.some.injEq, Prod.mk.injEq] at heq
    rw [← heq.2]
    rfl
  | x :: y :: ys =>
    have hdl : (x :: y :: ys).dropLast = x :: (y :: ys).dropLast := rfl
    simp only [heappop, hdl] at heq
    rw [Option.some.injEq, Prod.mk.injEq] at heq
    rw [← heq.2, siftup_length, List.length_set]
    simp [List.length_dropLast]

/-- Root minimality, by membership. -/
theorem root_min_mem {l : List DelayedPacket} (h : HeapInv l) :
    ∀ p ∈ l, (l.getD 0 default).delivery_time ≤ p.delivery_time := by
  intro p hp
  obtain ⟨i, hi, hip⟩ := List.getElem_of_mem hp
  have := root_min h i hi
  rw [getD_lt l default hi, hip] at this
  exact this

/-! ## The drain loop -/

theorem drainGo_nil (fuel : ℕ) (now : ℚ) : drainGo fuel [] now = ([], []) := by
  cases fuel <;> rfl

theorem drainGo_spec :
    ∀ (fuel : ℕ) (q : List DelayedPacket) (now : ℚ),
      q.length ≤ fuel → HeapInv q →
      (∀ p ∈ (drainGo fuel q now).1, p.delivery_time ≤ now) ∧
      (∀ p ∈ (drainGo fuel q now).2, now < p.delivery_time) ∧
      ((q : List DelayedPacket) : Multiset DelayedPacket) =
        (((drainGo fuel q now).1 : List DelayedPacket) :
            Multiset DelayedPacket) +
          (((drainGo fuel q now).2 : List DelayedPacket) :
            Multiset DelayedPacket) ∧
      HeapInv (drainGo fuel q now).2 ∧
      List.Pairwise (fun a b => a.delivery_time ≤ b.delivery_time)
        (drainGo fuel q now).1 := by
  intro fuel
  induction fuel with
  | zero =>
    intro q now hf hinv
    have hq : q = [] := by
      cases q with
      | nil => rfl
      | cons a as => simp at hf
    subst hq
    refine ⟨by simp [drainGo], by simp [drainGo], by simp [drainGo], ?_, ?_⟩
    · show HeapInv ([] : List DelayedPacket)
      intro i j hj hch; simp at hj
    · simp [drainGo]
  | succ fuel ih =>
    intro q now hf hinv
    cases q with
    | nil =>
      refine ⟨by simp [drainGo], by simp [drainGo], by simp [drainGo], ?_, ?_⟩
      · show HeapInv ([] : List DelayedPacket)
        intro i j hj hch; simp at hj
      · simp [drainGo]
    | cons p0 rest =>
      by_cases hle : p0.delivery_time ≤ now
      · obtain ⟨pq, hpq⟩ := heappop_isSome p0 rest
        have hps := heappop_spec _ pq.1 pq.2 (by rw [hpq]) hinv
        have hlen : pq.2.length ≤ fuel := by
          have := heappop_length _ pq.1 pq.2 (by rw [hpq])
          simp at this hf
          omega
        have hIH := ih pq.2 now hlen hps.2.1
        have hres1 : (drainGo (fuel + 1) (p0 :: rest) now).1 =
            pq.1 :: (drainGo fuel pq.2 now).1 := by
          simp [drainGo, hle, hpq]
        have hres2 : (drainGo (fuel + 1) (p0 :: rest) now).2 =
            (drainGo fuel pq.2 now).2 := by
          simp [drainGo, hle, hpq]
        have hp0 : pq.1 = p0 := hps.1
        have hms : p0 ::ₘ ((rest : List DelayedPacket) :
            Multiset DelayedPacket) = pq.1 ::ₘ
              ((pq.2 : List DelayedPacket) : Multiset DelayedPacket) := by
          rw [Multiset.cons_coe]
          exact hps.2.2.2
        refine ⟨?_, ?_, ?_, ?_, ?_⟩
        · rw [hres1]
          intro p hp
          rcases List.mem_cons.mp hp with hp | hp
          · rw [hp, hp0]; exact hle
          · exact hIH.1 p hp
        · rw [hres2]; exact hIH.2.1
        · rw [hres1, hres2]
          show ((p0 :: rest : List DelayedPacket) : Multiset DelayedPacket)
            = _
          rw [hps.2.2.2, hIH.2.2.1, ← Multiset.cons_coe, Multiset.cons_add]
        · rw [hres2]; exact hIH.2.2.2.1
        · rw [hres1]
          refine List.Pairwise.cons ?_ hIH.2.2.2.2
          intro b hb
          have hbq : b ∈ pq.2 := by
            have : (b : DelayedPacket) ∈
                ((pq.2 : List DelayedPacket) : Multiset DelayedPacket) := by
              rw [hIH.2.2.1]
              exact Multiset.mem_add.mpr (Or.inl (Multiset.mem_coe.mpr hb))
            exact Multiset.mem_coe.mp this
          have hbl : b ∈ p0 :: rest := by
            have : (b : DelayedPacket) ∈
                ((p0 :: rest : List DelayedPacket) : Multiset DelayedPacket)
              := by
              rw [hps.2.2.2]
              exact Multiset.mem_cons_of_mem (Multiset.mem_coe.mpr hbq)
            exact Multiset.mem_coe.mp this
          have := root_min_mem hinv b hbl
          rw [List.getD_cons_zero] at this
          rw [hp0]
          exact this
      · have hres : drainGo (fuel + 1) (p0 :: rest) now =
            ([], p0 :: rest) := by
          simp [drainGo, hle]
        rw [hres]
        refine ⟨by simp, ?_, by simp, hinv, by simp⟩
        intro p hp
        have := root_min_mem hinv p hp
        rw [List.getD_cons_zero] at this
        exact lt_of_lt_of_le (lt_of_not_le hle) this

theorem drainGo_exit :
    ∀ (fuel : ℕ) (q : List DelayedPacket) (now : ℚ),
      q.length ≤ fuel →
      (drainGo fuel q now).2 = [] ∨
        ¬ ((drainGo fuel q now).2.getD 0 default).delivery_time ≤ now := by
  intro fuel
  induction fuel with
  | zero =>
    intro q now hf
    have hq : q = [] := by
      cases q with
      | nil => rfl
      | cons a as => simp at hf
    subst hq
    left; rfl
  | succ fuel ih =>
    intro q now hf
    cases q with
    | nil => left; rfl
    | cons p0 rest =>
      by_cases hle : p0.delivery_time ≤ now
      · obtain ⟨pq, hpq⟩ := heappop_isSome p0 rest
        have hlen : pq.2.length ≤ fuel := by
          have := heappop_length _ pq.1 pq.2 (by rw [hpq])
          simp at this hf
          omega
        have hres : drainGo (fuel + 1) (p0 :: rest) now =
            (pq.1 :: (drainGo fuel pq.2 now).1,
              (drainGo fuel pq.2 now).2) := by
          simp [drainGo, hle, hpq]
        rw [hres]
        exact ih pq.2 now hlen
      · have hres : drainGo (fuel + 1) (p0 :: rest) now =
            ([], p0 :: rest) := by
          simp [drainGo, hle]
        rw [hres]
        right
        rw [List.getD_cons_zero]
        exact hle

/-! ## Step-level characterization of `enqueue_packet` -/

/-- `maybe_start_burst` touches only the burst state. -/
theorem maybe_start_burst_frame (s : LatencySimulator) (now draw : ℚ) :
    (maybe_start_burst s now draw).2.config = s.config ∧
    (maybe_start_burst s now draw).2.packet_queue = s.packet_queue ∧
    (maybe_start_burst s now draw).2.packets_sent = s.packets_sent ∧
    (maybe_start_burst s now draw).2.packets_dropped = s.packets_dropped ∧
    (maybe_start_burst s now draw).2.packets_delivered =
      s.packets_delivered ∧
    (maybe_start_burst s now draw).2.total_delay = s.total_delay := by
  unfold maybe_start_burst
  by_cases h1 : s.in_burst
  · by_cases h2 : now > s.burst_end_time
    · simp [h1, h2]
    · simp [h1, h2]
  · by_cases h3 : draw < s.config.burst_probability
    · simp [h1, h3]
    · simp [h1, h3]

/-- `maybe_start_burst` ignores the statistics counters. -/
theorem maybe_start_burst_sent (s : LatencySimulator) (n : ℕ)
    (now draw : ℚ) :
    maybe_start_burst { s with packets_sent := n } now draw =
      ((maybe_start_burst s now draw).1,
        { (maybe_start_burst s now draw).2 with packets_sent := n }) := by
  unfold maybe_start_burst
  by_cases h1 : s.in_burst
  · by_cases h2 : now > s.burst_end_time
    · simp [h1, h2]
    · simp [h1, h2]
  · by_cases h3 : draw < s.config.burst_probability
    · simp [h1, h3]
    · simp [h1, h3]

/-- The latency (in ms) an `enqueue_packet` call draws: the burst mean
plus Gaussian noise while bursting, the uniform draw otherwise. -/
def enqLat (sim : LatencySimulator) (now : ℚ) (d : Draws) : ℚ :=
  if (maybe_start_burst sim now d.burst).1 then
    sim.config.burst_latency_ms + d.noise
  else d.unif

/-- A lost packet only bumps `sent` and `dropped`. -/
theorem enqueue_drop (sim : LatencySimulator) (data : List ℕ)
    (topic : String) (now : ℚ) (d : Draws)
    (h : d.loss < sim.config.packet_loss_rate) :
    enqueue_packet sim data topic now d =
      (false, { sim with packets_sent := sim.packets_sent + 1,
                         packets_dropped := sim.packets_dropped + 1 }) := by
  simp only [enqueue_packet]
  rw [if_pos h]

/-- A kept packet: the burst machine steps, `sent` is bumped, the drawn
latency accumulates, and exactly one packet with the computed delivery
time is pushed. -/
theorem enqueue_keep (sim : LatencySimulator) (data : List ℕ)
    (topic : String) (now : ℚ) (d : Draws)
    (h : ¬ d.loss < sim.config.packet_loss_rate) :
    enqueue_packet sim data topic now d =
      (true, { (maybe_start_burst sim now d.burst).2 with
               packets_sent := sim.packets_sent + 1,
               total_delay := sim.total_delay + enqLat sim now d,
               packet_queue :=
                 heappush sim.packet_queue
                   ⟨now + enqLat sim now d / 1000, data, topic⟩ }) := by
  obtain ⟨hc, hq, hs, hd, hv, ht⟩ :=
    maybe_start_burst_frame sim now d.burst
  simp only [enqueue_packet]
  rw [if_neg h, maybe_start_burst_sent]
  simp only [enqLat]
  rw [hc, hq, ht]

/-! ## The four burst-machine transitions -/

theorem mb_active_expired {s : LatencySimulator} {now : ℚ} (draw : ℚ)
    (h1 : s.in_burst = true) (h2 : s.burst_end_time < now) :
    maybe_start_burst s now draw = (false, { s with in_burst := false }) := by
  unfold maybe_start_burst
  simp [h1, h2]

theorem mb_active_within {s : LatencySimulator} {now : ℚ} (draw : ℚ)
    (h1 : s.in_burst = true) (h2 : ¬ s.burst_end_time < now) :
    maybe_start_burst s now draw = (true, s) := by
  unfold maybe_start_burst
  simp [h1, h2]

theorem mb_idle_start {s : LatencySimulator} {now draw : ℚ}
    (h1 : s.in_burst = false)
    (h2 : draw < s.config.burst_probability) :
    maybe_start_burst s now draw =
      (true, { s with in_burst := true,
                      burst_end_time :=
                        now + s.config.burst_duration_ms / 1000 }) := by
  unfold maybe_start_burst
  simp [h1, h2]

theorem mb_idle_stay {s : LatencySimulator} {now draw : ℚ}
    (h1 : s.in_burst = false)
    (h2 : ¬ draw < s.config.burst_probability) :
    maybe_start_burst s now draw = (false, s) := by
  unfold maybe_start_burst
  simp [h1, h2]

/-! ## `get_ready_packets` components -/

theorem get_ready_fst (s : LatencySimulator) (now : ℚ) :
    (get_ready_packets s now).1 =
      (drainGo s.packet_queue.length s.packet_queue now).1 := rfl

theorem get_ready_queue (s : LatencySimulator) (now : ℚ) :
    (get_ready_packets s now).2.packet_queue =
      (drainGo s.packet_queue.length s.packet_queue now).2 := rfl

theorem get_ready_frame (s : LatencySimulator) (now : ℚ) :
    (get_ready_packets s now).2.config = s.config ∧
    (get_ready_packets s now).2.in_burst = s.in_burst ∧
    (get_ready_packets s now).2.burst_end_time = s.burst_end_time ∧
    (get_ready_packets s now).2.packets_sent = s.packets_sent ∧
    (get_ready_packets s now).2.packets_dropped = s.packets_dropped ∧
    (get_ready_packets s now).2.total_delay = s.total_delay ∧
    (get_ready_packets s now).2.packets_delivered =
      s.packets_delivered +
        (drainGo s.packet_queue.length s.packet_queue now).1.length :=
  ⟨rfl, rfl, rfl, rfl, rfl, rfl, rfl⟩

/-! ## The ghost schedule mirrors the real push -/

theorem schedStep_drop {s : LatencySimulator} {data : List ℕ}
    {topic : String} {now : ℚ} {d : Draws}
    (h : d.loss < s.config.packet_loss_rate) :
    schedStep s (.enq data topic now d) = [] := by
  simp only [schedStep]
  rw [if_pos h]

theorem schedStep_keep {s : LatencySimulator} {data : List ℕ}
    {topic : String} {now : ℚ} {d : Draws}
    (h : ¬ d.loss < s.config.packet_loss_rate) :
    schedStep s (.enq data topic now d) =
      [⟨now + enqLat s now d / 1000, data, topic⟩] := by
  obtain ⟨hc, _, _, _, _, _⟩ := maybe_start_burst_frame s now d.burst
  simp only [schedStep]
  rw [if_neg h, maybe_start_burst_sent]
  simp only [enqLat]
  rw [hc]

/-! ## Per-step state facts -/

theorem stepSim_config (s : LatencySimulator) (op : Op) :
    (stepSim s op).config = s.config := by
  cases op with
  | enq data topic now d =>
    show (enqueue_packet s data topic now d).2.config = s.config
    by_cases h : d.loss < s.config.packet_loss_rate
    · rw [enqueue_drop s data topic now d h]
    · rw [enqueue_keep s data topic now d h]
      exact (maybe_start_burst_frame s now d.burst).1
  | drain now => exact (get_ready_frame s now).1

/-- The packet queue is a binary heap in every reachable state. -/
theorem stepSim_heap {s : LatencySimulator} (h : HeapInv s.packet_queue)
    (op : Op) : HeapInv (stepSim s op).packet_queue := by
  cases op with
  | enq data topic now d =>
    show HeapInv (enqueue_packet s data topic now d).2.packet_queue
    by_cases hd : d.loss < s.config.packet_loss_rate
    · rw [enqueue_drop s data topic now d hd]
      exact h
    · rw [enqueue_keep s data topic now d hd]
      exact heappush_inv h _
  | drain now =>
    rw [show (stepSim s (.drain now)).packet_queue =
      (drainGo s.packet_queue.length s.packet_queue now).2 from rfl]
    exact (drainGo_spec s.packet_queue.length s.packet_queue now
      (le_refl _) h).2.2.2.1

/-- The packet-accounting invariant:
`sent = dropped + delivered + queue.length`. -/
def SimAcc (s : LatencySimulator) : Prop :=
  s.packets_sent =
    s.packets_dropped + s.packets_delivered + s.packet_queue.length

theorem stepSim_acc {s : LatencySimulator} (hh : HeapInv s.packet_queue)
    (ha : SimAcc s) (op : Op) : SimAcc (stepSim s op) := by
  cases op with
  | enq data topic now d =>
    show SimAcc (enqueue_packet s data topic now d).2
    by_cases hd : d.loss < s.config.packet_loss_rate
    · rw [enqueue_drop s data topic now d hd]
      simp only [SimAcc] at ha ⊢
      omega
    · rw [enqueue_keep s data topic now d hd]
      obtain ⟨_, _, _, hd4, hv5, _⟩ := maybe_start_burst_frame s now d.burst
      simp only [SimAcc] at ha ⊢
      simp only [heappush_length, hd4, hv5]
      omega
  | drain now =>
    show SimAcc (get_ready_packets s now).2
    have hms := (drainGo_spec s.packet_queue.length s.packet_queue now
      (le_refl _) hh).2.2.1
    have hcard := congrArg Multiset.card hms
    simp only [Multiset.coe_card, Multiset.card_add] at hcard
    obtain ⟨_, _, _, h4, h5, _, h7⟩ := get_ready_frame s now
    simp only [SimAcc] at ha ⊢
    rw [h4, h5, h7, get_ready_queue]
    omega

theorem stepSim_mono (s : LatencySimulator) (op : Op) :
    s.packets_sent ≤ (stepSim s op).packets_sent ∧
    s.packets_dropped ≤ (stepSim s op).packets_dropped ∧
    s.packets_delivered ≤ (stepSim s op).packets_delivered := by
  cases op with
  | enq data topic now d =>
    show s.packets_sent ≤
        (enqueue_packet s data topic now d).2.packets_sent ∧
      s.packets_dropped ≤
        (enqueue_packet s data topic now d).2.packets_dropped ∧
      s.packets_delivered ≤
        (enqueue_packet s data topic now d).2.packets_delivered
    by_cases hd : d.loss < s.config.packet_loss_rate
    · rw [enqueue_drop s data topic now d hd]
      refine ⟨?_, ?_, ?_⟩ <;> simp
    · rw [enqueue_keep s data topic now d hd]
      obtain ⟨_, _, _, h4, h5, _⟩ := maybe_start_burst_frame s now d.burst
      refine ⟨?_, ?_, ?_⟩ <;> simp [h4, h5]
  | drain now =>
    obtain ⟨_, _, _, h4, h5, _, h7⟩ := get_ready_frame s now
    show s.packets_sent ≤ (get_ready_packets s now).2.packets_sent ∧
      s.packets_dropped ≤ (get_ready_packets s now).2.packets_dropped ∧
      s.packets_delivered ≤ (get_ready_packets s now).2.packets_delivered
    rw [h4, h5, h7]
    refine ⟨le_refl _, le_refl _, by omega⟩

/-! ## Whole-trace facts -/

theorem runSim_cons (s : LatencySimulator) (op : Op) (ops : List Op) :
    runSim s (op :: ops) = runSim (stepSim s op) ops := rfl

theorem runSim_heap {s : LatencySimulator} (h : HeapInv s.packet_queue) :
    ∀ ops : List Op, HeapInv (runSim s ops).packet_queue := by
  intro ops
  induction ops generalizing s with
  | nil => exact h
  | cons op ops ih => exact ih (stepSim_heap h op)

theorem runSim_acc {s : LatencySimulator} (hh : HeapInv s.packet_queue)
    (ha : SimAcc s) : ∀ ops : List Op, SimAcc (runSim s ops) := by
  intro ops
  induction ops generalizing s with
  | nil => exact ha
  | cons op ops ih => exact ih (stepSim_heap hh op) (stepSim_acc hh ha op)

theorem runSim_mono (s : LatencySimulator) :
    ∀ ops : List Op,
      s.packets_sent ≤ (runSim s ops).packets_sent ∧
      s.packets_dropped ≤ (runSim s ops).packets_dropped ∧
      s.packets_delivered ≤ (runSim s ops).packets_delivered := by
  intro ops
  induction ops generalizing s with
  | nil => exact ⟨le_refl _, le_refl _, le_refl _⟩
  | cons op ops ih =>
    obtain ⟨a1, a2, a3⟩ := stepSim_mono s op
    obtain ⟨b1, b2, b3⟩ := ih (stepSim s op)
    exact ⟨le_trans a1 b1, le_trans a2 b2, le_trans a3 b3⟩

/-- One step conserves packets: what a call hands out plus what stays
queued is what was queued plus what the call scheduled. -/
theorem step_conservation {s : LatencySimulator}
    (h : HeapInv s.packet_queue) (op : Op) :
    ((drainedStep s op : List DelayedPacket) : Multiset DelayedPacket) +
      ((stepSim s op).packet_queue : List DelayedPacket) =
    ((s.packet_queue : List DelayedPacket) : Multiset DelayedPacket) +
      ((schedStep s op : List DelayedPacket) : Multiset DelayedPacket) := by
  cases op with
  | enq data topic now d =>
    by_cases hd : d.loss < s.config.packet_loss_rate
    · rw [show drainedStep s (.enq data topic now d) = [] from rfl,
        schedStep_drop hd,
        show (stepSim s (.enq data topic now d)).packet_queue =
          (enqueue_packet s data topic now d).2.packet_queue from rfl,
        enqueue_drop s data topic now d hd]
      simp
    · rw [show drainedStep s (.enq data topic now d) = [] from rfl,
        schedStep_keep hd,
        show (stepSim s (.enq data topic now d)).packet_queue =
          (enqueue_packet s data topic now d).2.packet_queue from rfl,
        enqueue_keep s data topic now d hd]
      show (0 : Multiset DelayedPacket) +
          ((heappush s.packet_queue
            ⟨now + enqLat s now d / 1000, data, topic⟩ :
              List DelayedPacket) : Multiset DelayedPacket) = _
      rw [heappush_ms, zero_add, ← Multiset.singleton_add, add_comm]
      rfl
  | drain now =>
    have hms := (drainGo_spec s.packet_queue.length s.packet_queue now
      (le_refl _) h).2.2.1
    rw [show drainedStep s (.drain now) =
        (drainGo s.packet_queue.length s.packet_queue now).1 from rfl,
      show (stepSim s (.drain now)).packet_queue =
        (drainGo s.packet_queue.length s.packet_queue now).2 from rfl,
      show schedStep s (.drain now) = [] from rfl, ← hms]
    simp

theorem run_conservation {s : LatencySimulator}
    (h : HeapInv s.packet_queue) :
    ∀ ops : List Op,
      ((drainedAll s ops : List DelayedPacket) : Multiset DelayedPacket) +
        ((runSim s ops).packet_queue : List DelayedPacket) =
      ((s.packet_queue : List DelayedPacket) : Multiset DelayedPacket) +
        ((schedAll s ops : List DelayedPacket) : Multiset DelayedPacket) := by
  intro ops
  induction ops generalizing s with
  | nil => simp [drainedAll, schedAll, runSim]
  | cons op ops ih =>
    have hstep := step_conservation h op
    have hIH := ih (stepSim_heap h op)
    rw [show drainedAll s (op :: ops) =
        drainedStep s op ++ drainedAll (stepSim s op) ops from rfl,
      show schedAll s (op :: ops) =
        schedStep s op ++ schedAll (stepSim s op) ops from rfl,
      runSim_cons, ← Multiset.coe_add, ← Multiset.coe_add]
    calc ((drainedStep s op : List DelayedPacket) : Multiset DelayedPacket)
          + ((drainedAll (stepSim s op) ops : List DelayedPacket) :
              Multiset DelayedPacket)
          + ((runSim (stepSim s op) ops).packet_queue :
              List DelayedPacket)
        = ((drainedStep s op : List DelayedPacket) : Multiset DelayedPacket)
          + (((drainedAll (stepSim s op) ops : List DelayedPacket) :
              Multiset DelayedPacket)
            + ((runSim (stepSim s op) ops).packet_queue :
                List DelayedPacket)) := by abel
      _ = ((drainedStep s op : List DelayedPacket) : Multiset DelayedPacket)
          + (((stepSim s op).packet_queue : List DelayedPacket) +
            ((schedAll (stepSim s op) ops : List DelayedPacket) :
              Multiset DelayedPacket)) := by rw [hIH]
      _ = (((drainedStep s op : List DelayedPacket) :
              Multiset DelayedPacket)
          + ((stepSim s op).packet_queue : List DelayedPacket))
          + ((schedAll (stepSim s op) ops : List DelayedPacket) :
              Multiset DelayedPacket) := by abel
      _ = (((s.packet_queue : List DelayedPacket) : Multiset DelayedPacket)
          + ((schedStep s op : List DelayedPacket) : Multiset DelayedPacket))
          + ((schedAll (stepSim s op) ops : List DelayedPacket) :
              Multiset DelayedPacket) := by rw [hstep]
      _ = ((s.packet_queue : List DelayedPacket) : Multiset DelayedPacket)
          + (((schedStep s op : List DelayedPacket) :
              Multiset DelayedPacket)
            + ((schedAll (stepSim s op) ops : List DelayedPacket) :
              Multiset DelayedPacket)) := by abel

/-! ## Scheduled packets carry the enqueue call's payload and topic -/

theorem schedStep_mem {s : LatencySimulator} {op : Op} {p : DelayedPacket}
    (hp : p ∈ schedStep s op) :
    ∃ (now : ℚ) (d : Draws), op = Op.enq p.data p.topic now d := by
  cases op with
  | drain now => simp [schedStep] at hp
  | enq data topic now d =>
    by_cases hd : d.loss < s.config.packet_loss_rate
    · rw [schedStep_drop hd] at hp
      simp at hp
    · rw [schedStep_keep hd] at hp
      simp at hp
      exact ⟨now, d, by rw [hp]⟩

theorem schedAll_mem :
    ∀ (ops : List Op) (s : LatencySimulator) (p : DelayedPacket),
      p ∈ schedAll s ops →
      ∃ (now : ℚ) (d : Draws), Op.enq p.data p.topic now d ∈ ops := by
  intro ops
  induction ops with
  | nil => intro s p hp; simp [schedAll] at hp
  | cons op ops ih =>
    intro s p hp
    rw [show schedAll s (op :: ops) =
      schedStep s op ++ schedAll (stepSim s op) ops from rfl] at hp
    rcases List.mem_append.mp hp with hp | hp
    · obtain ⟨now, d, hop⟩ := schedStep_mem hp
      exact ⟨now, d, by rw [← hop]; exact List.mem_cons_self op ops⟩
    · obtain ⟨now, d, hop⟩ := ih (stepSim s op) p hp
      exact ⟨now, d, List.mem_cons_of_mem op hop⟩

/-! ## Burst window transitions along a trace -/

theorem step_burst_enq {s : LatencySimulator} {data : List ℕ}
    {topic : String} {now : ℚ} {d : Draws}
    (h : ¬ d.loss < s.config.packet_loss_rate) :
    (stepSim s (.enq data topic now d)).in_burst =
      (maybe_start_burst s now d.burst).2.in_burst ∧
    (stepSim s (.enq data topic now d)).burst_end_time =
      (maybe_start_burst s now d.burst).2.burst_end_time := by
  rw [show stepSim s (.enq data topic now d) =
    (enqueue_packet s data topic now d).2 from rfl,
    enqueue_keep s data topic now d h]
  exact ⟨rfl, rfl⟩

theorem step_burst_enq_drop {s : LatencySimulator} {data : List ℕ}
    {topic : String} {now : ℚ} {d : Draws}
    (h : d.loss < s.config.packet_loss_rate) :
    (stepSim s (.enq data topic now d)).in_burst = s.in_burst ∧
    (stepSim s (.enq data topic now d)).burst_end_time =
      s.burst_end_time := by
  rw [show stepSim s (.enq data topic now d) =
    (enqueue_packet s data topic now d).2 from rfl,
    enqueue_drop s data topic now d h]
  exact ⟨rfl, rfl⟩

/-- A burst can only start on a non-dropped enqueue whose draw beats
`burst_probability`, and it fixes `ends_at = now + duration`. -/
theorem burst_start_char {s : LatencySimulator} {op : Op}
    (h0 : s.in_burst = false) (h1 : (stepSim s op).in_burst = true) :
    (stepSim s op).burst_end_time =
      nowOf op + s.config.burst_duration_ms / 1000 := by
  cases op with
  | drain now =>
    rw [show (stepSim s (.drain now)).in_burst = s.in_burst from rfl, h0]
      at h1
    exact absurd h1 (by simp)
  | enq data topic now d =>
    by_cases hd : d.loss < s.config.packet_loss_rate
    · obtain ⟨hb, _⟩ := step_burst_enq_drop hd
      rw [hb, h0] at h1
      exact absurd h1 (by simp)
    · obtain ⟨hb, he⟩ := step_burst_enq hd
      by_cases hdr : d.burst < s.config.burst_probability
      · rw [he, mb_idle_start h0 hdr]
        rfl
      · rw [hb, mb_idle_stay h0 hdr, h0] at h1
        exact absurd h1 (by simp)

/-- While a burst stays active across a step, `ends_at` is unchanged. -/
theorem burst_stay_true {s : LatencySimulator} {op : Op}
    (h0 : s.in_burst = true) (h1 : (stepSim s op).in_burst = true) :
    (stepSim s op).burst_end_time = s.burst_end_time := by
  cases op with
  | drain now => rfl
  | enq data topic now d =>
    by_cases hd : d.loss < s.config.packet_loss_rate
    · exact (step_burst_enq_drop hd).2
    · obtain ⟨hb, he⟩ := step_burst_enq hd
      by_cases hex : s.burst_end_time < now
      · rw [hb, mb_active_expired d.burst h0 hex] at h1
        exact absurd h1 (by simp)
      · rw [he, mb_active_within d.burst h0 hex]

/-- A burst is cleared only by a call that observes `now > ends_at`. -/
theorem burst_clear_char {s : LatencySimulator} {op : Op}
    (h0 : s.in_burst = true) (h1 : (stepSim s op).in_burst = false) :
    s.burst_end_time < nowOf op := by
  cases op with
  | drain now =>
    rw [show (stepSim s (.drain now)).in_burst = s.in_burst from rfl, h0]
      at h1
    exact absurd h1 (by simp)
  | enq data topic now d =>
    by_cases hd : d.loss < s.config.packet_loss_rate
    · rw [(step_burst_enq_drop hd).1, h0] at h1
      exact absurd h1 (by simp)
    · obtain ⟨hb, _⟩ := step_burst_enq hd
      by_cases hex : s.burst_end_time < now
      · exact hex
      · rw [hb, mb_active_within d.burst h0 hex, h0] at h1
        exact absurd h1 (by simp)

/-- A call whose clock is still inside the window keeps the burst and its
window unchanged. -/
theorem burst_stay_keep {s : LatencySimulator} {op : Op}
    (h0 : s.in_burst = true) (hnow : nowOf op ≤ s.burst_end_time) :
    (stepSim s op).in_burst = true ∧
      (stepSim s op).burst_end_time = s.burst_end_time := by
  cases op with
  | drain now => exact ⟨h0, rfl⟩
  | enq data topic now d =>
    by_cases hd : d.loss < s.config.packet_loss_rate
    · obtain ⟨hb, he⟩ := step_burst_enq_drop hd
      rw [hb, he]
      exact ⟨h0, rfl⟩
    · obtain ⟨hb, he⟩ := step_burst_enq hd
      have hex : ¬ s.burst_end_time < now := not_lt.mpr hnow
      rw [hb, he, mb_active_within d.burst h0 hex]
      exact ⟨h0, rfl⟩

theorem burstStarts_cons (s : LatencySimulator) (op : Op) (ops : List Op) :
    burstStarts s (op :: ops) =
      (if s.in_burst = false ∧ (stepSim s op).in_burst = true
       then [nowOf op] else []) ++ burstStarts (stepSim s op) ops := rfl

theorem burstStarts_mem_nowOf :
    ∀ (ops : List Op) (s : LatencySimulator) (t : ℚ),
      t ∈ burstStarts s ops → ∃ op ∈ ops, t = nowOf op := by
  intro ops
  induction ops with
  | nil => intro s t ht; simp [burstStarts] at ht
  | cons op ops ih =>
    intro s t ht
    rw [burstStarts_cons] at ht
    rcases List.mem_append.mp ht with ht | ht
    · refine ⟨op, List.mem_cons_self op ops, ?_⟩
      by_cases hc : s.in_burst = false ∧ (stepSim s op).in_burst = true
      · rw [if_pos hc] at ht
        simpa using ht
      · rw [if_neg hc] at ht
        simp at ht
    · obtain ⟨op', hop', ht'⟩ := ih (stepSim s op) t ht
      exact ⟨op', List.mem_cons_of_mem op hop', ht'⟩

/-- While a burst is active, every later burst start (under a monotone
clock) lies strictly after the current window's end. -/
theorem burstStarts_gt_end :
    ∀ (ops : List Op) (s : LatencySimulator),
      (ops.map nowOf).Pairwise (· ≤ ·) → s.in_burst = true →
      ∀ t ∈ burstStarts s ops, s.burst_end_time < t := by
  intro ops
  induction ops with
  | nil => intro s _ _ t ht; simp [burstStarts] at ht
  | cons op ops ih =>
    intro s hmono hburst t ht
    have hmt : (ops.map nowOf).Pairwise (· ≤ ·) :=
      (List.pairwise_cons.mp hmono).2
    rw [burstStarts_cons, if_neg (by simp [hburst])] at ht
    rw [List.nil_append] at ht
    cases hcase : (stepSim s op).in_burst with
    | true =>
      have hend := burst_stay_true hburst hcase
      have := ih (stepSim s op) hmt hcase t ht
      rw [hend] at this
      exact this
    | false =>
      have hlt := burst_clear_char hburst hcase
      obtain ⟨op', hop', ht'⟩ := burstStarts_mem_nowOf ops (stepSim s op) t ht
      have hle : nowOf op ≤ nowOf op' :=
        (List.pairwise_cons.mp hmono).1 (nowOf op')
          (List.mem_map_of_mem nowOf hop')
      rw [ht']
      exact lt_of_lt_of_le hlt hle

/-- Burst windows never overlap: under a monotone clock, any later burst
start lies strictly after the earlier start plus the burst duration. -/
theorem burstStarts_gap :
    ∀ (ops : List Op) (s : LatencySimulator),
      (ops.map nowOf).Pairwise (· ≤ ·) →
      (burstStarts s ops).Pairwise
        (fun t1 t2 => t1 + s.config.burst_duration_ms / 1000 < t2) := by
  intro ops
  induction ops with
  | nil => intro s _; simp [burstStarts]
  | cons op ops ih =>
    intro s hmono
    have hmt : (ops.map nowOf).Pairwise (· ≤ ·) :=
      (List.pairwise_cons.mp hmono).2
    have hihs := ih (stepSim s op) hmt
    rw [stepSim_config] at hihs
    rw [burstStarts_cons]
    by_cases hc : s.in_burst = false ∧ (stepSim s op).in_burst = true
    · rw [if_pos hc, List.singleton_append]
      refine List.Pairwise.cons ?_ hihs
      intro t ht
      have hchar := burst_start_char hc.1 hc.2
      have := burstStarts_gt_end ops (stepSim s op) hmt hc.2 t ht
      rw [hchar] at this
      exact this
    · rw [if_neg hc, List.nil_append]
      exact hihs

/-- Inside a window, a whole run of calls leaves the burst and its window
untouched. -/
theorem runSim_burst_keep :
    ∀ (ops : List Op) (s : LatencySimulator),
      s.in_burst = true →
      (∀ op ∈ ops, nowOf op ≤ s.burst_end_time) →
      (runSim s ops).in_burst = true ∧
        (runSim s ops).burst_end_time = s.burst_end_time := by
  intro ops
  induction ops with
  | nil => intro s h _; exact ⟨h, rfl⟩
  | cons op ops ih =>
    intro s hburst hops
    obtain ⟨h1, h2⟩ := burst_stay_keep hburst
      (hops op (List.mem_cons_self op ops))
    rw [runSim_cons]
    have := ih (stepSim s op) h1
      (fun op' hop' => by
        rw [h2]; exact hops op' (List.mem_cons_of_mem op hop'))
    rw [h2] at this
    exact this

theorem init_heap (cfg : LatencyConfig) :
    HeapInv (LatencySimulator.init cfg).packet_queue := by
  intro i j hj hch
  simp [LatencySimulator.init] at hj

theorem init_acc (cfg : LatencyConfig) :
    SimAcc (LatencySimulator.init cfg) := rfl

theorem runSim_append (s : LatencySimulator) (ops1 ops2 : List Op) :
    runSim s (ops1 ++ ops2) = runSim (runSim s ops1) ops2 :=
  List.foldl_append stepSim s ops1 ops2

theorem runSim_config (s : LatencySimulator) :
    ∀ ops : List Op, (runSim s ops).config = s.config := by
  intro ops
  induction ops generalizing s with
  | nil => rfl
  | cons op ops ih => rw [runSim_cons, ih, stepSim_config]

/-! # Claim theorems -/

/-- C2: after every finite sequence of `enqueue_packet` / `get_ready_packets`
calls on one simulator instance, `packets_sent = packets_dropped +
packets_delivered + packet_queue.length` (every sent packet is accounted
exactly once as dropped, delivered, or still queued), and the counters
`packets_sent`, `packets_dropped`, `packets_delivered` are monotonically
non-decreasing over the simulator's lifetime. -/
theorem c2_counters_accounting (cfg : LatencyConfig)
    (ops1 ops2 : List Op) :
    ((runSim (LatencySimulator.init cfg) (ops1 ++ ops2)).packets_sent =
      (runSim (LatencySimulator.init cfg) (ops1 ++ ops2)).packets_dropped +
        (runSim (LatencySimulator.init cfg)
          (ops1 ++ ops2)).packets_delivered +
        (runSim (LatencySimulator.init cfg)
          (ops1 ++ ops2)).packet_queue.length) ∧
    (runSim (LatencySimulator.init cfg) ops1).packets_sent ≤
      (runSim (LatencySimulator.init cfg) (ops1 ++ ops2)).packets_sent ∧
    (runSim (LatencySimulator.init cfg) ops1).packets_dropped ≤
      (runSim (LatencySimulator.init cfg) (ops1 ++ ops2)).packets_dropped ∧
    (runSim (LatencySimulator.init cfg) ops1).packets_delivered ≤
      (runSim (LatencySimulator.init cfg) (ops1 ++ ops2)).packets_delivered
    := by
  have hacc := runSim_acc (init_heap cfg) (init_acc cfg) (ops1 ++ ops2)
  have hmono := runSim_mono (runSim (LatencySimulator.init cfg) ops1) ops2
  rw [← runSim_append] at hmono
  exact ⟨hacc, hmono.1, hmono.2.1, hmono.2.2⟩

/-- C3: `get_ready_packets now` on any reachable state returns exactly the
due packets: every returned packet has `delivery_time ≤ now`, every packet
left in the queue has `delivery_time > now`, the returned packets plus the
remaining queue are (as a multiset) exactly the old queue, and over the
whole lifetime the multiset of all returned packets plus the final queue
equals the multiset of all scheduled packets — so no packet is returned
twice or invented. -/
theorem c3_drain_exact (cfg : LatencyConfig) (ops : List Op) (now : ℚ) :
    (∀ p ∈ (get_ready_packets
        (runSim (LatencySimulator.init cfg) ops) now).1,
      p.delivery_time ≤ now) ∧
    (∀ p ∈ (get_ready_packets
        (runSim (LatencySimulator.init cfg) ops) now).2.packet_queue,
      now < p.delivery_time) ∧
    (((runSim (LatencySimulator.init cfg) ops).packet_queue :
        List DelayedPacket) : Multiset DelayedPacket) =
      (((get_ready_packets (runSim (LatencySimulator.init cfg) ops)
          now).1 : List DelayedPacket) : Multiset DelayedPacket) +
        (((get_ready_packets (runSim (LatencySimulator.init cfg) ops)
            now).2.packet_queue : List DelayedPacket) :
          Multiset DelayedPacket) ∧
    ((drainedAll (LatencySimulator.init cfg) ops : List DelayedPacket) :
        Multiset DelayedPacket) +
      ((runSim (LatencySimulator.init cfg) ops).packet_queue :
        List DelayedPacket) =
      ((schedAll (LatencySimulator.init cfg) ops : List DelayedPacket) :
        Multiset DelayedPacket) := by
  have hheap := runSim_heap (init_heap cfg) ops
  have hspec := drainGo_spec
    (runSim (LatencySimulator.init cfg) ops).packet_queue.length
    (runSim (LatencySimulator.init cfg) ops).packet_queue now
    (le_refl _) hheap
  have hcons := run_conservation (init_heap cfg) ops
  rw [show (LatencySimulator.init cfg).packet_queue = [] from rfl] at hcons
  simp only [Multiset.coe_nil, zero_add] at hcons
  refine ⟨?_, ?_, ?_, hcons⟩
  · rw [get_ready_fst]; exact hspec.1
  · rw [get_ready_queue]; exact hspec.2.1
  · rw [get_ready_fst, get_ready_queue]; exact hspec.2.2.1

/-- C4 (amended): the sequence returned by `get_ready_packets` is sorted
by ascending `delivery_time`; there is no sequence field, and packets with
equal delivery times come back in an order determined by the heap
internals, not in enqueue order (see the counterexample). -/
theorem c4_amended_sorted (cfg : LatencyConfig) (ops : List Op) (now : ℚ) :
    List.Pairwise (fun a b => a.delivery_time ≤ b.delivery_time)
      (get_ready_packets (runSim (LatencySimulator.init cfg) ops) now).1
    := by
  have hheap := runSim_heap (init_heap cfg) ops
  rw [get_ready_fst]
  exact (drainGo_spec _ _ now (le_refl _) hheap).2.2.2.2

/-- C7 (amended): construction performs no validation whatsoever:
`__init__` stores any configuration verbatim — invalid bounds are neither
rejected nor clamped — and starts with an empty queue, cleared burst state
and zeroed counters (see the counterexample for an accepted invalid
configuration). -/
theorem c7_amended_no_validation (cfg : LatencyConfig) :
    (LatencySimulator.init cfg).config = cfg ∧
    (LatencySimulator.init cfg).packet_queue = [] ∧
    (LatencySimulator.init cfg).in_burst = false ∧
    (LatencySimulator.init cfg).packets_sent = 0 ∧
    (LatencySimulator.init cfg).packets_dropped = 0 ∧
    (LatencySimulator.init cfg).packets_delivered = 0 ∧
    (LatencySimulator.init cfg).total_delay = 0 :=
  ⟨rfl, rfl, rfl, rfl, rfl, rfl, rfl⟩

/-- C9: calling `get_ready_packets` twice in succession with the same
`now` and no intervening enqueue returns an empty sequence the second
time — the first call already removed every due packet. -/
theorem c9_drain_idempotent (sim : LatencySimulator) (now : ℚ) :
    (get_ready_packets (get_ready_packets sim now).2 now).1 = [] := by
  rw [get_ready_fst, get_ready_queue]
  rcases drainGo_exit sim.packet_queue.length sim.packet_queue now
    (le_refl _) with h | h
  · rw [h]
    rw [show ([] : List DelayedPacket).length = 0 from rfl]
    rfl
  · cases hq : (drainGo sim.packet_queue.length sim.packet_queue now).2 with
    | nil =>
      rw [show ([] : List DelayedPacket).length = 0 from rfl]
      rfl
    | cons c cs =>
      rw [hq, List.getD_cons_zero] at h
      rw [show (c :: cs).length = cs.length + 1 from rfl]
      simp [drainGo, h]

/-- C1 (amended): a non-dropped enqueue schedules exactly one packet with
`delivery_time = now + latency/1000`, where `latency` is the raw drawn
value (burst mean plus Gaussian noise in the burst branch, the uniform
draw otherwise) with **no** `max(0, ·)` clamp; consequently
`delivery_time ≥ now` holds exactly when the drawn latency is
non-negative, and a sufficiently negative Gaussian draw schedules into the
past (see the counterexample). -/
theorem c1_amended_delivery (sim : LatencySimulator) (data : List ℕ)
    (topic : String) (now : ℚ) (d : Draws)
    (h : ¬ d.loss < sim.config.packet_loss_rate)
    (hl : 0 ≤ enqLat sim now d) :
    (enqueue_packet sim data topic now d).1 = true ∧
    (enqueue_packet sim data topic now d).2.packet_queue =
      heappush sim.packet_queue
        ⟨now + enqLat sim now d / 1000, data, topic⟩ ∧
    now ≤ now + enqLat sim now d / 1000 := by
  rw [enqueue_keep sim data topic now d h]
  refine ⟨rfl, rfl, ?_⟩
  have hdiv : 0 ≤ enqLat sim now d / 1000 :=
    div_nonneg hl (by norm_num)
  linarith

/-- C5 (amended): when `maybe_start_burst` is called while a burst is
active and `now > ends_at`, it clears the flag and returns `false` in that
same call — it does **not** fall through to the probabilistic start, so no
random draw is consumed and no new burst can begin on that call, even with
`burst_probability = 1` (see the counterexample); a fresh burst can begin
only on a later call that starts in the not-bursting state with a draw
below `burst_probability`. -/
theorem c5_amended_burst_expiry (s : LatencySimulator) (now draw : ℚ)
    (h1 : s.in_burst = true) (h2 : s.burst_end_time < now) :
    maybe_start_burst s now draw = (false, { s with in_burst := false }) ∧
    (∀ (s2 : LatencySimulator) (now2 draw2 : ℚ), s2.in_burst = false →
      draw2 < s2.config.burst_probability →
      maybe_start_burst s2 now2 draw2 =
        (true, { s2 with in_burst := true,
                         burst_end_time :=
                           now2 + s2.config.burst_duration_ms / 1000 })) :=
  ⟨mb_active_expired draw h1 h2,
    fun _ _ _ h3 h4 => mb_idle_start h3 h4⟩

/-- C6: burst containment. (i) While a burst is active, any run of calls
whose clocks stay within the window keeps the burst (with its `ends_at`
fixed) and a non-dropped enqueue inside the window computes its latency
from the burst branch (`burst_latency_ms + noise`). (ii) The first
non-dropped enqueue after the window elapses (`now > ends_at`) uses the
ordinary uniform latency and clears the flag. (iii) A burst starts only
from the idle state, fixing `ends_at = now + burst_duration/1000`.
(iv) Under a monotone clock, consecutive burst start times are separated
by more than `burst_duration/1000`, so burst windows never overlap. -/
theorem c6_burst_containment :
    (∀ (s : LatencySimulator) (ops : List Op) (data : List ℕ)
        (topic : String) (now : ℚ) (d : Draws),
      s.in_burst = true →
      (∀ op ∈ ops, nowOf op ≤ s.burst_end_time) →
      now ≤ s.burst_end_time →
      ¬ d.loss < (runSim s ops).config.packet_loss_rate →
      (enqueue_packet (runSim s ops) data topic now d).2.packet_queue =
        heappush (runSim s ops).packet_queue
          ⟨now + ((runSim s ops).config.burst_latency_ms + d.noise) / 1000,
            data, topic⟩) ∧
    (∀ (s : LatencySimulator) (data : List ℕ) (topic : String) (now : ℚ)
        (d : Draws),
      s.in_burst = true → s.burst_end_time < now →
      ¬ d.loss < s.config.packet_loss_rate →
      (enqueue_packet s data topic now d).2.packet_queue =
        heappush s.packet_queue ⟨now + d.unif / 1000, data, topic⟩ ∧
      (enqueue_packet s data topic now d).2.in_burst = false) ∧
    (∀ (s : LatencySimulator) (data : List ℕ) (topic : String) (now : ℚ)
        (d : Draws),
      s.in_burst = false → d.burst < s.config.burst_probability →
      ¬ d.loss < s.config.packet_loss_rate →
      (enqueue_packet s data topic now d).2.in_burst = true ∧
      (enqueue_packet s data topic now d).2.burst_end_time =
        now + s.config.burst_duration_ms / 1000) ∧
    (∀ (cfg : LatencyConfig) (ops : List Op),
      (ops.map nowOf).Pairwise (· ≤ ·) →
      (burstStarts (LatencySimulator.init cfg) ops).Pairwise
        (fun t1 t2 => t1 + cfg.burst_duration_ms / 1000 < t2)) := by
  refine ⟨?_, ?_, ?_, ?_⟩
  · intro s ops data topic now d hb hops hnow hd
    obtain ⟨hib, hend⟩ := runSim_burst_keep ops s hb hops
    have hex : ¬ (runSim s ops).burst_end_time < now := by
      rw [hend]; exact not_lt.mpr hnow
    rw [enqueue_keep (runSim s ops) data topic now d hd]
    show heappush (runSim s ops).packet_queue
        ⟨now + enqLat (runSim s ops) now d / 1000, data, topic⟩ = _
    have hlat : enqLat (runSim s ops) now d =
        (runSim s ops).config.burst_latency_ms + d.noise := by
      simp [enqLat, mb_active_within d.burst hib hex]
    rw [hlat]
  · intro s data topic now d hb hex hd
    rw [enqueue_keep s data topic now d hd]
    constructor
    · show heappush s.packet_queue
        ⟨now + enqLat s now d / 1000, data, topic⟩ = _
      have hlat : enqLat s now d = d.unif := by
        simp [enqLat, mb_active_expired d.burst hb hex]
      rw [hlat]
    · show (maybe_start_burst s now d.burst).2.in_burst = false
      rw [mb_active_expired d.burst hb hex]
  · intro s data topic now d hb hdr hd
    rw [enqueue_keep s data topic now d hd]
    constructor
    · show (maybe_start_burst s now d.burst).2.in_burst = true
      rw [mb_idle_start hb hdr]
    · show (maybe_start_burst s now d.burst).2.burst_end_time = _
      rw [mb_idle_start hb hdr]
  · intro cfg ops hmono
    exact burstStarts_gap ops (LatencySimulator.init cfg) hmono

/-- C8: when the loss draw selects drop, the call returns the dropped
result and bumps only `sent` and `dropped`: the full-state equation shows
the queue, the burst state (`in_burst`, `burst_end_time`) and
`total_delay` are completely unchanged, so a dropped packet leaves no
trace. -/
theorem c8_drop_no_trace (sim : LatencySimulator) (data : List ℕ)
    (topic : String) (now : ℚ) (d : Draws)
    (h : d.loss < sim.config.packet_loss_rate) :
    enqueue_packet sim data topic now d =
      (false, { sim with packets_sent := sim.packets_sent + 1,
                         packets_dropped := sim.packets_dropped + 1 }) :=
  enqueue_drop sim data topic now d h

/-- C10: every packet handed back by a drain carries exactly the payload
bytes and topic string of the enqueue call that created it — the delivered
packet's `data` and `topic` fields are verbatim those of some
`Op.enq data topic _ _` operation in the trace. -/
theorem c10_payload_fidelity (cfg : LatencyConfig) (ops : List Op) :
    ∀ p ∈ drainedAll (LatencySimulator.init cfg) ops,
      ∃ (now : ℚ) (d : Draws), Op.enq p.data p.topic now d ∈ ops := by
  intro p hp
  have hcons := run_conservation (init_heap cfg) ops
  rw [show (LatencySimulator.init cfg).packet_queue = [] from rfl] at hcons
  simp only [Multiset.coe_nil, zero_add] at hcons
  have hmem : p ∈ ((schedAll (LatencySimulator.init cfg) ops :
      List DelayedPacket) : Multiset DelayedPacket) := by
    rw [← hcons]
    exact Multiset.mem_add.mpr (Or.inl (Multiset.mem_coe.mpr hp))
  exact schedAll_mem ops (LatencySimulator.init cfg) p
    (Multiset.mem_coe.mp hmem)

/-! # Concrete instances for the counterexamples and witnesses -/

attribute [local semireducible] Rat.add Rat.mul Rat.inv Rat.sub
  Rat.ofScientific

/-- Loss and bursts disabled; the uniform draw below is 1000 ms. -/
def cfgTie : LatencyConfig :=
  { packet_loss_rate := 0, burst_probability := 0 }

def drawsTie : Draws := ⟨0, 1, 0, 1000⟩

def opsTie : List Op :=
  [Op.enq [0] "t" 0 drawsTie, Op.enq [1] "t" 0 drawsTie,
   Op.enq [2] "t" 0 drawsTie, Op.enq [3] "t" 0 drawsTie]

/-- Bursts always start (probability 1), loss disabled. -/
def cfgBurst1 : LatencyConfig :=
  { packet_loss_rate := 0, burst_probability := 1 }

/-- Certain loss: every loss draw in `[0,1)` is below the rate 1. -/
def cfgLoss : LatencyConfig := { packet_loss_rate := 1 }

/-- An invalid configuration: `min_latency > max_latency`, a loss rate of
5, a negative burst probability and a negative duration. -/
def cfgBad : LatencyConfig :=
  { min_latency_ms := 300, max_latency_ms := 50, packet_loss_rate := 5,
    burst_probability := -1, burst_duration_ms := -100,
    burst_latency_ms := 800 }

/-- A reachable state with an active burst: one enqueue at time 0 under
`cfgBurst1` starts a burst with `ends_at = 1/2`. -/
def simB : LatencySimulator :=
  (enqueue_packet (LatencySimulator.init cfgBurst1) [] "t" 0
    ⟨0, 0, 0, 100⟩).2

def opsC10 : List Op := [Op.enq [7] "t" 0 drawsTie, Op.drain 2]

/-- C1 counterexample: under `cfgBurst1` the very first enqueue (at
`now = 0`) starts a burst and computes its latency from the burst branch
with Gaussian draw −1800 ms; the packet is scheduled (result `true`) at
`delivery_time = (800 − 1800)/1000 = −1 < now` — there is no
`max(0, ·)` clamp, refuting `deliver_at ≥ now`. -/
theorem c1_counterexample :
    (enqueue_packet (LatencySimulator.init cfgBurst1) [] "t" 0
      ⟨0, 0, -1800, 100⟩).1 = true ∧
    ((enqueue_packet (LatencySimulator.init cfgBurst1) [] "t" 0
        ⟨0, 0, -1800, 100⟩).2.packet_queue.getD 0
      default).delivery_time < 0 := by decide

theorem c1_witness :
    (¬ (drawsTie.loss <
        (LatencySimulator.init cfgTie).config.packet_loss_rate)) ∧
    (0 ≤ enqLat (LatencySimulator.init cfgTie) 0 drawsTie) ∧
    ((enqueue_packet (LatencySimulator.init cfgTie) [5] "t" 0
        drawsTie).1 = true ∧
      (enqueue_packet (LatencySimulator.init cfgTie) [5] "t" 0
          drawsTie).2.packet_queue =
        heappush (LatencySimulator.init cfgTie).packet_queue
          ⟨0 + enqLat (LatencySimulator.init cfgTie) 0 drawsTie / 1000,
            [5], "t"⟩ ∧
      (0 : ℚ) ≤ 0 + enqLat (LatencySimulator.init cfgTie) 0 drawsTie
        / 1000) :=
  ⟨by decide, by decide,
    c1_amended_delivery (LatencySimulator.init cfgTie) [5] "t" 0 drawsTie
      (by decide) (by decide)⟩

/-- C4 counterexample: four packets enqueued in payload order
`[0],[1],[2],[3]`, all with the same delivery time 1, are returned by the
drain in order `[0],[2],[1],[3]` — packets with equal `deliver_at` do not
come back in enqueue order (and no sequence field exists to break the
tie). -/
theorem c4_counterexample :
    (∀ p ∈ (runSim (LatencySimulator.init cfgTie) opsTie).packet_queue,
      p.delivery_time = 1) ∧
    ((get_ready_packets (runSim (LatencySimulator.init cfgTie) opsTie)
        2).1).map (fun p => p.data) = [[0], [2], [1], [3]] ∧
    [[0], [2], [1], [3]] ≠ [[0], [1], [2], [3]] := by decide

/-- C5 counterexample: `simB` has an active burst with `ends_at = 1/2`
and `burst_probability = 1`; the call `maybe_start_burst simB 1 0`
observes the burst expired (`1 > 1/2`) with a draw `0 < 1` that the
claimed fall-through would turn into a fresh burst — yet the call returns
`false` and leaves the machine idle. -/
theorem c5_counterexample :
    simB.in_burst = true ∧
    simB.burst_end_time < 1 ∧
    (0 : ℚ) < simB.config.burst_probability ∧
    (maybe_start_burst simB 1 0).1 = false ∧
    (maybe_start_burst simB 1 0).2.in_burst = false := by decide

theorem c5_witness :
    simB.in_burst = true ∧ simB.burst_end_time < 1 ∧
    (maybe_start_burst simB 1 0 =
        (false, { simB with in_burst := false }) ∧
      (∀ (s2 : LatencySimulator) (now2 draw2 : ℚ), s2.in_burst = false →
        draw2 < s2.config.burst_probability →
        maybe_start_burst s2 now2 draw2 =
          (true, { s2 with in_burst := true,
                           burst_end_time :=
                             now2 + s2.config.burst_duration_ms
                               / 1000 }))) :=
  ⟨by decide, by decide,
    c5_amended_burst_expiry simB 1 0 (by decide) (by decide)⟩

theorem c6_witness :
    (simB.in_burst = true ∧
      (∀ op ∈ [Op.drain (1/4)], nowOf op ≤ simB.burst_end_time) ∧
      ((1 : ℚ)/2 ≤ simB.burst_end_time) ∧
      ¬ ((0 : ℚ) <
        (runSim simB [Op.drain (1/4)]).config.packet_loss_rate)) ∧
    ((enqueue_packet (runSim simB [Op.drain (1/4)]) [1] "t" (1/2)
        ⟨0, 0, 0, 100⟩).2.packet_queue =
      heappush (runSim simB [Op.drain (1/4)]).packet_queue
        ⟨1/2 + ((runSim simB
            [Op.drain (1/4)]).config.burst_latency_ms + 0) / 1000,
          [1], "t"⟩) ∧
    ((opsTie.map nowOf).Pairwise (· ≤ ·) ∧
      (burstStarts (LatencySimulator.init cfgBurst1) opsTie).Pairwise
        (fun t1 t2 => t1 + cfgBurst1.burst_duration_ms / 1000 < t2)) :=
  ⟨⟨by decide, by decide, by decide, by decide⟩,
    c6_burst_containment.1 simB [Op.drain (1/4)] [1] "t" (1/2)
      ⟨0, 0, 0, 100⟩ (by decide) (by decide) (by decide) (by decide),
    by decide,
    c6_burst_containment.2.2.2 cfgBurst1 opsTie (by decide)⟩

theorem c8_witness :
    ((⟨0, 0, 0, 0⟩ : Draws).loss <
      (LatencySimulator.init cfgLoss).config.packet_loss_rate) ∧
    enqueue_packet (LatencySimulator.init cfgLoss) [] "t" 0
        ⟨0, 0, 0, 0⟩ =
      (false, { LatencySimulator.init cfgLoss with
                packets_sent :=
                  (LatencySimulator.init cfgLoss).packets_sent + 1,
                packets_dropped :=
                  (LatencySimulator.init cfgLoss).packets_dropped + 1 }) :=
  ⟨by decide,
    c8_drop_no_trace (LatencySimulator.init cfgLoss) [] "t" 0
      ⟨0, 0, 0, 0⟩ (by decide)⟩

/-- C7 counterexample: a simulator is successfully constructed from the
invalid configuration `cfgBad` (min 300 > max 50, loss rate 5 outside
[0,1], negative probability and duration); the constructed instance holds
the invalid values verbatim — construction neither fails nor clamps. -/
theorem c7_counterexample :
    (LatencySimulator.init cfgBad).config.min_latency_ms = 300 ∧
    (LatencySimulator.init cfgBad).config.max_latency_ms = 50 ∧
    ¬ ((LatencySimulator.init cfgBad).config.min_latency_ms ≤
        (LatencySimulator.init cfgBad).config.max_latency_ms) ∧
    ¬ ((LatencySimulator.init cfgBad).config.packet_loss_rate ≤ 1) ∧
    ¬ (0 ≤ (LatencySimulator.init cfgBad).config.burst_probability) ∧
    (LatencySimulator.init cfgBad).config.burst_duration_ms < 0 := by
  decide

theorem c10_witness :
    (⟨1, [7], "t"⟩ : DelayedPacket) ∈
      drainedAll (LatencySimulator.init cfgTie) opsC10 ∧
    ∃ (now : ℚ) (d : Draws), Op.enq [7] "t" now d ∈ opsC10 :=
  ⟨by decide,
    c10_payload_fidelity cfgTie opsC10 ⟨1, [7], "t"⟩ (by decide)⟩

end Godview
